import Mathlib

/-!
Formal model of the cmca-publication-audit document-to-verdict pipeline.

Each Python function that the verified properties concern is translated into
a Lean definition operating on explicit data:

* `pgvector_db.py` (`VectorDB._cosine_similarity`, `VectorDB.query_by_vector`)
  — vectors become `List ℝ`, the stored table becomes a `List VecItem`, and
  the psycopg2 `cur.execute` call (whose parameter list never matches the
  generated SQL's placeholders) becomes an `Except`-valued step.
* `src/backend/app/services/llm_service.py` (`run_llm_verification_from_json`)
  — similarity scores become `ℚ`; the external retrieval and language-model
  calls become explicit inputs (`results`, `llm`).
* `src/backend/app/services/highlight_service.py`
  (`highlight_answer_yes_sentences_from_bytes`) — the PyMuPDF library is an
  abstract record of operations; Python exceptions become `Except`.
* `src/extraction/sentences.py` (`iter_page_sentences`) — page text becomes
  `List Char`; the regex scan is an explicit fuelled scan.
* `src/extraction/extract-sangram.py` (`detect_two_columns`,
  `sort_blocks_two_col`, `sort_blocks_single_col`) — coordinates become `ℚ`.

Python's `list.sort(key, reverse=True)` is a stable sort; a stable sort is
uniquely determined by its comparator, so it is modelled by the stable
insertion sort `sortBy` below.
-/

/-- Python `str.strip()` whitespace set, at ASCII (the inputs considered
are ASCII; Python also strips further Unicode whitespace). -/
def pyIsSpace (c : Char) : Bool :=
  c = ' ' || c = '\t' || c = '\n' || c = '\r' || c = Char.ofNat 11 || c = Char.ofNat 12

/-- Python `str.strip()` on a character list: drop whitespace at both ends. -/
def pyStrip (l : List Char) : List Char :=
  ((l.dropWhile pyIsSpace).reverse.dropWhile pyIsSpace).reverse

/-- Python `str.strip()` on a string. -/
def pyStripStr (s : String) : String :=
  ⟨pyStrip s.data⟩

/-- Stable insertion step: place `x` before the first element `y` with
`le x y = true`.  With `le a b := key b ≤ key a` this reproduces Python's
stable descending sort. -/
def insertBy (le : α → α → Bool) (x : α) : List α → List α
  | [] => [x]
  | y :: ys => if le x y then x :: y :: ys else y :: insertBy le x ys

/-- Stable insertion sort (the unique stable sort for a total comparator,
hence the same function as Python's `list.sort`). -/
def sortBy (le : α → α → Bool) : List α → List α
  | [] => []
  | x :: xs => insertBy le x (sortBy le xs)

theorem length_insertBy (le : α → α → Bool) (x : α) (l : List α) :
    (insertBy le x l).length = l.length + 1 := by
  induction l with
  | nil => rfl
  | cons y ys ih =>
    simp only [insertBy]
    by_cases h : le x y = true
    · simp [h]
    · simp [h, ih]

theorem length_sortBy (le : α → α → Bool) (l : List α) :
    (sortBy le l).length = l.length := by
  induction l with
  | nil => rfl
  | cons x xs ih => simp [sortBy, length_insertBy, ih]

theorem perm_insertBy (le : α → α → Bool) (x : α) (l : List α) :
    List.Perm (insertBy le x l) (x :: l) := by
  induction l with
  | nil => exact List.Perm.refl _
  | cons y ys ih =>
    simp only [insertBy]
    by_cases h : le x y = true
    · simp [h]
    · simp only [h, if_neg]
      exact List.Perm.trans (List.Perm.cons y ih) (List.Perm.swap x y ys)

theorem perm_sortBy (le : α → α → Bool) (l : List α) :
    List.Perm (sortBy le l) l := by
  induction l with
  | nil => exact List.Perm.refl _
  | cons x xs ih =>
    exact List.Perm.trans (perm_insertBy le x (sortBy le xs)) (List.Perm.cons x ih)

theorem mem_insertBy (le : α → α → Bool) (x : α) (l : List α) (z : α) :
    z ∈ insertBy le x l ↔ z = x ∨ z ∈ l := by
  rw [(perm_insertBy le x l).mem_iff, List.mem_cons]

theorem pairwise_insertBy (le : α → α → Bool)
    (total : ∀ a b, le a b = true ∨ le b a = true)
    (trans : ∀ a b c, le a b = true → le b c = true → le a c = true)
    (x : α) (l : List α) (hl : l.Pairwise (fun a b => le a b = true)) :
    (insertBy le x l).Pairwise (fun a b => le a b = true) := by
  induction l with
  | nil => simp [insertBy]
  | cons y ys ih =>
    rcases List.pairwise_cons.mp hl with ⟨hy, hys⟩
    simp only [insertBy]
    by_cases h : le x y = true
    · rw [if_pos h]
      refine List.Pairwise.cons ?_ hl
      intro z hz
      rcases List.mem_cons.mp hz with hz' | hz'
      · exact hz' ▸ h
      · exact trans x y z h (hy z hz')
    · rw [if_neg h]
      refine List.Pairwise.cons ?_ (ih hys)
      intro z hz
      rcases (mem_insertBy le x ys z).mp hz with hz' | hz'
      · subst hz'
        rcases total z y with h' | h'
        · exact absurd h' h
        · exact h'
      · exact hy z hz'

theorem pairwise_sortBy (le : α → α → Bool)
    (total : ∀ a b, le a b = true ∨ le b a = true)
    (trans : ∀ a b c, le a b = true → le b c = true → le a c = true)
    (l : List α) :
    (sortBy le l).Pairwise (fun a b => le a b = true) := by
  induction l with
  | nil => simp [sortBy]
  | cons x xs ih => exact pairwise_insertBy le total trans x (sortBy le xs) ih

/-! ### Semantic retrieval engine (`pgvector_db.py`) -/

/-- `sum(x * y for x, y in zip(a, b))` — the dot product of
`VectorDB._cosine_similarity`; Python's `zip` silently truncates to the
shorter list. -/
def dotList (a b : List ℝ) : ℝ :=
  ((a.zip b).map fun p => p.1 * p.2).sum

/-- `sum(x * x for x in a)`. -/
def sumSquares (a : List ℝ) : ℝ :=
  (a.map fun x => x * x).sum

/-- `math.sqrt(sum(x * x for x in a))` — a vector's magnitude. -/
noncomputable def magnitude (a : List ℝ) : ℝ :=
  Real.sqrt (sumSquares a)

/-- `VectorDB._cosine_similarity` (pgvector_db.py lines 57-66): returns `0`
when either magnitude is zero, otherwise `dot / (|a| * |b|)`. -/
noncomputable def cosineSimilarity (a b : List ℝ) : ℝ :=
  if magnitude a = 0 ∨ magnitude b = 0 then 0
  else dotList a b / (magnitude a * magnitude b)

/-- One stored row of a collection table: `(id, document, metadata, embedding)`.
JSONB metadata is modelled as a key-value list; `metadata->>'k'` text
extraction becomes `metaLookup`. -/
structure VecItem where
  id : String
  document : Option String
  metadata : List (String × String)
  embedding : List ℝ

/-- SQL `metadata->>'key'`: the value stored under a key, if any. -/
def metaLookup (m : List (String × String)) (k : String) : Option String :=
  (m.find? (fun kv => kv.1 = k)).map (fun kv => kv.2)

/-- The generated `WHERE` clause: every filter key must be present with the
given value (`str(value)` already applied). -/
def matchesWhere (w : List (String × String)) (it : VecItem) : Bool :=
  w.all (fun kv => metaLookup it.metadata kv.1 = some kv.2)

/-- The Chroma-style result of `VectorDB.query_by_vector`. -/
structure QueryResult where
  ids : List (List String)
  documents : List (List (Option String))
  metadatas : List (List (List (String × String)))
  distances : List (List ℝ)

/-- The psycopg2 error raised by `cur.execute` when the SQL text has fewer
`%s` placeholders than supplied parameters. -/
def sqlParamError : String :=
  "not all arguments converted during string formatting"

/-- `cur.execute(sql, params)`: psycopg2 binds parameters client-side with
the string-format operator, so it raises unless the number of `%s`
placeholders in the SQL equals the number of parameters; on success the
rows satisfying the query are returned. -/
def sqlExecute (placeholders : Nat) (paramCount : Nat) (rows : List VecItem) :
    Except String (List VecItem) :=
  if placeholders = paramCount then .ok rows else .error sqlParamError

/-- `VectorDB.query_by_vector` (pgvector_db.py lines 161-224): an empty
query list returns bare empty lists before any database access; otherwise
only `query_embeddings[0]` is kept, `params` is seeded with
`[query_vector, n_results]` (line 184) and grows by one per `where` key,
while the generated `SELECT ... FROM {name} {where_clause}` (lines 200-204)
contains one `%s` per `where` key and none for the seed — so `cur.execute`
always receives two more parameters than placeholders and raises.  The
similarity scan of lines 206-224 (score every fetched row with
`_cosine_similarity`, stable-sort descending, take `n_results`, format with
`distances = 1 - similarity`) is translated in the unreachable `.ok`
branch. -/
noncomputable def queryByVectorE (store : List VecItem)
    (queryEmbeddings : List (List ℝ)) (nResults : Nat)
    (w : List (String × String)) : Except String QueryResult :=
  match queryEmbeddings with
  | [] => .ok ⟨[], [], [], []⟩
  | q :: _ =>
    let placeholders := w.length
    let paramCount := 2 + w.length
    match sqlExecute placeholders paramCount
        (if w.isEmpty then store else store.filter (matchesWhere w)) with
    | .error e => .error e
    | .ok results =>
      let similarities := results.map (fun it => (it, cosineSimilarity q it.embedding))
      let sorted := sortBy (fun p1 p2 => decide (p2.2 ≤ p1.2)) similarities
      let top := sorted.take nResults
      .ok { ids := [top.map (fun r => r.1.id)],
            documents := [top.map (fun r => r.1.document)],
            metadatas := [top.map (fun r => r.1.metadata)],
            distances := [top.map (fun r => 1 - r.2)] }

theorem dotList_comm (a b : List ℝ) : dotList a b = dotList b a := by
  induction a generalizing b with
  | nil => cases b <;> simp [dotList]
  | cons x xs ih =>
    cases b with
    | nil => simp [dotList]
    | cons y ys =>
      simp only [dotList, List.zip_cons_cons, List.map_cons, List.sum_cons]
      rw [mul_comm]
      have := ih ys
      simp only [dotList] at this
      rw [this]

theorem dotList_self (a : List ℝ) : dotList a a = sumSquares a := by
  induction a with
  | nil => rfl
  | cons x xs ih =>
    simp only [dotList, sumSquares, List.zip_cons_cons, List.map_cons,
      List.sum_cons] at *
    rw [ih]

theorem sumSquares_nonneg (a : List ℝ) : 0 ≤ sumSquares a := by
  induction a with
  | nil => simp [sumSquares]
  | cons x xs ih =>
    simp only [sumSquares, List.map_cons, List.sum_cons] at *
    exact add_nonneg (mul_self_nonneg x) ih

theorem sumSquares_pos (a : List ℝ) (x : ℝ) (hx : x ∈ a) (hx0 : x ≠ 0) :
    0 < sumSquares a := by
  induction a with
  | nil => cases hx
  | cons y ys ih =>
    simp only [sumSquares, List.map_cons, List.sum_cons]
    rcases List.mem_cons.mp hx with h | h
    · subst h
      exact add_pos_of_pos_of_nonneg (mul_self_pos.mpr hx0) (sumSquares_nonneg ys)
    · exact add_pos_of_nonneg_of_pos (mul_self_nonneg y) (by
        have := ih h
        simpa [sumSquares] using this)

theorem magnitude_pos_of_nonzero (a : List ℝ) (h : ∃ x ∈ a, x ≠ 0) :
    0 < magnitude a := by
  rcases h with ⟨x, hx, hx0⟩
  exact Real.sqrt_pos.mpr (sumSquares_pos a x hx hx0)

/-- C9: the cosine similarity used by the retrieval engine is symmetric for
equal-dimension vectors, equals `1` on any non-zero vector compared with
itself, and equals `0` whenever either argument has zero magnitude. -/
theorem cosine_similarity_props :
    (∀ a b : List ℝ, a.length = b.length →
        cosineSimilarity a b = cosineSimilarity b a)
    ∧ (∀ a : List ℝ, (∃ x ∈ a, x ≠ 0) → cosineSimilarity a a = 1)
    ∧ (∀ a b : List ℝ, magnitude a = 0 ∨ magnitude b = 0 →
        cosineSimilarity a b = 0) := by
  refine ⟨?_, ?_, ?_⟩
  · intro a b _
    simp only [cosineSimilarity, dotList_comm a b, Or.comm, mul_comm]
  · intro a h
    have hm : 0 < magnitude a := magnitude_pos_of_nonzero a h
    have hne : ¬ (magnitude a = 0 ∨ magnitude a = 0) := by
      intro hc
      rcases hc with hc | hc <;> exact absurd hc (ne_of_gt hm)
    simp only [cosineSimilarity, hne, if_false]
    rw [dotList_self]
    have hsq : magnitude a * magnitude a = sumSquares a :=
      Real.mul_self_sqrt (sumSquares_nonneg a)
    rw [hsq]
    have hs : sumSquares a ≠ 0 := by
      have := Real.sqrt_pos.mp hm
      exact ne_of_gt this
    exact div_self hs
  · intro a b h
    simp only [cosineSimilarity, h, if_true]

/-- Witness for `cosine_similarity_props` at concrete vectors. -/
theorem cosine_similarity_props_witness :
    cosineSimilarity [(1:ℝ), 2] [3, 4] = cosineSimilarity [3, 4] [1, 2]
    ∧ cosineSimilarity [(1:ℝ)] [1] = 1
    ∧ cosineSimilarity [(0:ℝ)] [5] = 0 :=
  ⟨cosine_similarity_props.1 [1, 2] [3, 4] rfl,
   cosine_similarity_props.2.1 [1] ⟨1, by simp, one_ne_zero⟩,
   cosine_similarity_props.2.2 [0] [5]
     (Or.inl (by simp [magnitude, sumSquares]))⟩

/-- A one-row collection whose stored vector has dimension 2. -/
def c3Store : List VecItem := [⟨"a", none, [], [1, 0]⟩]

/-- C3: a query whose vector dimension differs from a stored vector's
dimension raises an error surfaced to the caller rather than returning a
similarity result — `cur.execute` receives the two seed parameters
`[query_vector, n_results]` that match no placeholder, so the call raises
before any similarity is computed. -/
theorem query_dim_mismatch_raises :
    ∀ (store : List VecItem) (q : List ℝ) (qs : List (List ℝ)) (k : Nat)
      (w : List (String × String)),
      (∃ it ∈ store, it.embedding.length ≠ q.length) →
      queryByVectorE store (q :: qs) k w = .error sqlParamError := by
  intro store q qs k w _
  simp only [queryByVectorE, sqlExecute]
  rw [if_neg (by omega)]

/-- Witness for `query_dim_mismatch_raises`: a 1-dimensional query against
a collection holding a 2-dimensional vector. -/
theorem query_dim_mismatch_raises_witness :
    queryByVectorE c3Store [[(1:ℝ)]] 5 [] = .error sqlParamError :=
  query_dim_mismatch_raises c3Store [(1:ℝ)] [] 5 []
    ⟨⟨"a", none, [], [1, 0]⟩, List.mem_cons_self _ _, by decide⟩

/-- C5 counterexample: querying an empty collection does not yield an
empty, non-error result — the call raises the parameter-binding error
before the table's contents matter. -/
theorem query_empty_collection_counterexample :
    queryByVectorE [] [[(1:ℝ)]] 5 [] = .error sqlParamError
    ∧ queryByVectorE [] [[(1:ℝ)]] 5 [] ≠ .ok ⟨[[]], [[]], [[]], [[]]⟩ :=
  ⟨rfl, fun h => nomatch h⟩

/-- C5 amended: `query_by_vector` never returns a result for a non-empty
query-vector list — every such call, over any collection (an empty one
included), any `k` and any filter, raises the parameter-binding error to
the caller; in particular no call ever returns more than `k` results or an
ordering inversion, because no result is ever returned. -/
theorem query_always_raises :
    ∀ (store : List VecItem) (q : List ℝ) (qs : List (List ℝ)) (k : Nat)
      (w : List (String × String)),
      queryByVectorE store (q :: qs) k w = .error sqlParamError := by
  intro store q qs k w
  simp only [queryByVectorE, sqlExecute]
  rw [if_neg (by omega)]

/-- C10 counterexample: a call with a non-empty query-vector list does not
return a `QueryResult` at all (so no returned result "depends on the first
vector"): it raises the parameter-binding error. -/
theorem query_first_vector_counterexample :
    queryByVectorE c3Store [[(1:ℝ)], [2, 3]] 5 [] = .error sqlParamError
    ∧ queryByVectorE c3Store [[(1:ℝ)], [2, 3]] 5 []
        ≠ .ok ⟨[["a"]], [[none]], [[[]]], [[0]]⟩ :=
  ⟨rfl, fun h => nomatch h⟩

/-- C10 amended: for a non-empty query-vector list the call never returns a
result — it raises the same parameter-binding error whatever the vectors,
so vectors beyond the first (indeed all vectors) are ignored; a call with
an empty query-vector list returns empty ids, documents, metadatas and
distances without consulting the collection. -/
theorem query_ignores_rest_raises :
    (∀ (store : List VecItem) (q : List ℝ) (rest : List (List ℝ)) (k : Nat)
        (w : List (String × String)),
        queryByVectorE store (q :: rest) k w = queryByVectorE store [q] k w
        ∧ queryByVectorE store (q :: rest) k w = .error sqlParamError)
    ∧ (∀ (store : List VecItem) (k : Nat) (w : List (String × String)),
        queryByVectorE store [] k w = .ok ⟨[], [], [], []⟩) := by
  constructor
  · intro store q rest k w
    constructor
    · rfl
    · simp only [queryByVectorE, sqlExecute]
      rw [if_neg (by omega)]
  · intro store k w
    rfl

/-! ### Adjudication stage (`llm_service.run_llm_verification_from_json`)

Similarity scores are `ℚ`.  The two external calls are explicit inputs: the
retrieval result `results` (what `search_sentences` returned, an association
of query sentence to `(match, score)` lists) and the deterministic
language-model oracle `llm` (the raw completion text per query sentence). -/

/-- One entry of the extractor JSON `sentences` array. -/
structure RawSent where
  id : String
  page : Nat
  index : Nat
  text : String
deriving DecidableEq

/-- `needle` is a leading segment of `hay`. -/
def leadsWith : List Char → List Char → Bool
  | [], _ => true
  | _ :: _, [] => false
  | a :: as, b :: bs => a = b && leadsWith as bs

/-- Python `needle in hay` — contiguous-substring containment. -/
def containsSeg (needle : List Char) : List Char → Bool
  | [] => decide (needle = [])
  | c :: rest => leadsWith needle (c :: rest) || containsSeg needle rest

/-- `"Answer: Yes" in answer_text` — Python substring containment. -/
def containsAnswerYes (s : String) : Bool :=
  containsSeg ("Answer: Yes".data) s.data

/-- Python `s.startswith(pre)`. -/
def pyStartsWith (s pre : String) : Bool :=
  leadsWith pre.data s.data

/-- One element of the `Sentence_verifications` output list. -/
structure VerifRecord where
  sentence_id : Option String
  page : Option Nat
  index : Option Nat
  query_text : String
  similarity_score : ℚ
  llm_response : String
deriving DecidableEq

/-- The dictionary returned by `run_llm_verification_from_json` (the early
return for an empty sentence list omits `Sentence_verifications`, modelled
as the empty list). -/
structure VerifResult where
  cmca_result : String
  cosine_similarity : ℚ
  sentence_verifications : List VerifRecord
deriving DecidableEq

/-- Python `round(x, 4)` (exact-arithmetic model; Python's float
round-half-to-even differs only on exact five-in-the-fifth-place ties).
Written with `mkRat` and `Rat.floor`; `round4_eq` shows this is
`round (x * 10000) / 10000`. -/
def round4 (x : ℚ) : ℚ :=
  mkRat (Rat.floor (x * 10000 + mkRat 1 2)) 10000

theorem round4_eq (x : ℚ) : round4 x = round (x * 10000) / 10000 := by
  rw [round_eq, round4, Rat.mkRat_eq_div]
  rw [show Rat.floor (x * 10000 + mkRat 1 2) = ⌊x * 10000 + mkRat 1 2⌋ from
    by rw [Rat.floor_def', Rat.floor_def]]
  rw [show (mkRat 1 2 : ℚ) = 1 / 2 from by rw [Rat.mkRat_eq_div]; norm_num]
  norm_num

theorem round4_mono : Monotone round4 := by
  intro x y h
  rw [round4_eq, round4_eq]
  have h1 : x * 10000 + 1 / 2 ≤ y * 10000 + 1 / 2 := by nlinarith
  have h2 : round (x * 10000) ≤ round (y * 10000) := by
    rw [round_eq, round_eq]
    exact Int.floor_mono h1
  have h3 : ((round (x * 10000) : ℤ) : ℚ) ≤ ((round (y * 10000) : ℤ) : ℚ) := by
    exact_mod_cast h2
  exact div_le_div_of_nonneg_right h3 (by norm_num) |>.trans_eq rfl

/-- Python `max(a, b)`: the first argument wins ties. -/
def qmax (a b : ℚ) : ℚ :=
  if b ≤ a then a else b

theorem qmax_eq_max (a b : ℚ) : qmax a b = max a b := by
  unfold qmax
  by_cases h : b ≤ a
  · rw [if_pos h, max_eq_left h]
  · rw [if_neg h, max_eq_right (le_of_not_le h)]

theorem foldl_qmax_eq (xs : List ℚ) (b : ℚ) :
    xs.foldl qmax b = xs.foldl max b := by
  induction xs generalizing b with
  | nil => rfl
  | cons x xs ih =>
    simp only [List.foldl_cons, qmax_eq_max, ih]

/-- Python `max` on a list of scores (never applied to `[]` in the code). -/
def pyMaxQ (l : List ℚ) : ℚ :=
  match l with
  | [] => 0
  | x :: xs => xs.foldl qmax x

/-- Lines 61-75 of llm_service.py: keep queries with some score above the
threshold, restrict their matches to those scores, rank by best score
descending (stable) and take the top `top_k`. -/
def topQueries (results : List (String × List (String × ℚ)))
    (top_k : Nat) (threshold : ℚ) : List (String × List (String × ℚ) × ℚ) :=
  let filtered := results.filterMap (fun qm =>
    if qm.2.any (fun m => threshold ≤ m.2)
    then some (qm.1, qm.2.filter (fun m => threshold ≤ m.2)) else none)
  let ranked := filtered.map (fun qm => (qm.1, qm.2, pyMaxQ (qm.2.map (fun m => m.2))))
  (sortBy (fun t1 t2 => decide (t2.2.2 ≤ t1.2.2)) ranked).take top_k

/-- Lines 111-120: the verification record built for one adjudicated query
(`meta` is the first raw sentence with matching text; `answer_text` is the
stripped model completion). -/
def verifRecordOf (rawSentences : List RawSent) (llm : String → String)
    (t : String × List (String × ℚ) × ℚ) : VerifRecord :=
  let meta := rawSentences.find? (fun s => s.text = t.1)
  { sentence_id := meta.map (fun s => s.id)
    page := meta.map (fun s => s.page)
    index := meta.map (fun s => s.index)
    query_text := t.1
    similarity_score := round4 t.2.2
    llm_response := pyStripStr (llm t.1) }

/-- `run_llm_verification_from_json` (llm_service.py lines 46-127):
empty input short-circuits to verdict "No"/0.0; otherwise the top-ranked
queries are adjudicated, the verdict is "Yes" when any stripped answer
contains `"Answer: Yes"`, and the confidence is the running maximum of the
adjudicated best scores (seeded with 0.0), rounded to 4 places. -/
def runLLMVerification (rawSentences : List RawSent)
    (results : List (String × List (String × ℚ))) (llm : String → String)
    (top_k : Nat) (threshold : ℚ) : VerifResult :=
  if rawSentences.isEmpty then ⟨"No", 0, []⟩
  else
    let tops := topQueries results top_k threshold
    ⟨if tops.any (fun t => containsAnswerYes (pyStripStr (llm t.1))) then "Yes" else "No",
     round4 (tops.foldl (fun acc t => qmax acc t.2.2) 0),
     tops.map (verifRecordOf rawSentences llm)⟩

def c1Raw : List RawSent := [⟨"S001-00001", 1, 0, "We thank CMCA."⟩]

def c1Results : List (String × List (String × ℚ)) :=
  [("We thank CMCA.", [("ref", mkRat 4 5)])]

def c1LLM : String → String :=
  fun _ => "I conclude that the Answer: Yes criterion holds"

/-- C1 counterexample: the code tests `"Answer: Yes" in answer_text`
(containment), not a prefix test — an answer that merely contains the
marker yields verdict "Yes" although no answer starts with it. -/
theorem verdict_counterexample :
    (runLLMVerification c1Raw c1Results c1LLM 7 (mkRat 7 10)).cmca_result = "Yes"
    ∧ ((runLLMVerification c1Raw c1Results c1LLM 7 (mkRat 7 10)).sentence_verifications.map
        (fun r => pyStartsWith r.llm_response "Answer: Yes")) = [false] := by
  decide

/-- C1 amended: the document verdict is "Yes" iff at least one adjudicated
answer *contains* the substring `"Answer: Yes"` (Python `in`, not a prefix
test), and is "No" otherwise. -/
theorem verdict_contains_iff :
    ∀ (rawSentences : List RawSent) (results : List (String × List (String × ℚ)))
      (llm : String → String) (top_k : Nat) (threshold : ℚ),
      ((runLLMVerification rawSentences results llm top_k threshold).cmca_result = "Yes"
        ↔ ∃ r ∈ (runLLMVerification rawSentences results llm top_k threshold).sentence_verifications,
            containsAnswerYes r.llm_response = true)
      ∧ ((runLLMVerification rawSentences results llm top_k threshold).cmca_result = "Yes"
        ∨ (runLLMVerification rawSentences results llm top_k threshold).cmca_result = "No") := by
  intro raw results llm k thr
  by_cases hemp : raw.isEmpty
  · have he : runLLMVerification raw results llm k thr = ⟨"No", 0, []⟩ := by
      simp [runLLMVerification, hemp]
    rw [he]
    refine ⟨⟨fun h => absurd h (by decide), fun h => ?_⟩, Or.inr rfl⟩
    rcases h with ⟨r, hr, _⟩
    simp at hr
  · have hrun : runLLMVerification raw results llm k thr =
        ⟨if (topQueries results k thr).any
            (fun t => containsAnswerYes (pyStripStr (llm t.1))) then "Yes" else "No",
         round4 ((topQueries results k thr).foldl (fun acc t => qmax acc t.2.2) 0),
         (topQueries results k thr).map (verifRecordOf raw llm)⟩ := by
      simp [runLLMVerification, hemp]
    rw [hrun]
    by_cases hany : (topQueries results k thr).any
        (fun t => containsAnswerYes (pyStripStr (llm t.1))) = true
    · rw [if_pos hany]
      refine ⟨⟨fun _ => ?_, fun _ => rfl⟩, Or.inl rfl⟩
      rcases List.any_eq_true.mp hany with ⟨t, ht, hP⟩
      exact ⟨verifRecordOf raw llm t, List.mem_map_of_mem _ ht, hP⟩
    · rw [if_neg hany]
      refine ⟨⟨fun h => absurd (show ("No" : String) = "Yes" from h) (by decide),
        fun h => ?_⟩, Or.inr rfl⟩
      rcases h with ⟨r, hr, hP⟩
      rcases List.mem_map.mp hr with ⟨t, ht, rfl⟩
      exact absurd (List.any_eq_true.mpr ⟨t, ht, hP⟩) hany

def c2Raw : List RawSent := [⟨"S001-00001", 1, 0, "We acknowledge the facility."⟩]

def c2Results : List (String × List (String × ℚ)) :=
  [("We acknowledge the facility.", [("ref", mkRat 4 5)])]

def c2LLM : String → String := fun _ => "Answer: No - generic thanks only"

/-- C2 counterexample: a run whose single adjudicated candidate is answered
"Answer: No" (no positively-labeled candidate) still reports confidence
0.8, not 0.0 — the maximum is taken over all adjudicated candidates. -/
theorem confidence_counterexample :
    (runLLMVerification c2Raw c2Results c2LLM 7 (mkRat 7 10)).cosine_similarity = mkRat 4 5
    ∧ ((runLLMVerification c2Raw c2Results c2LLM 7 (mkRat 7 10)).sentence_verifications.map
        (fun r => containsAnswerYes r.llm_response)) = [false]
    ∧ mkRat 4 5 ≠ 0 := by
  have hrun : runLLMVerification c2Raw c2Results c2LLM 7 (mkRat 7 10) =
      ⟨"No", round4 (mkRat 4 5),
       [⟨some "S001-00001", some 1, some 0, "We acknowledge the facility.",
         round4 (mkRat 4 5), pyStripStr "Answer: No - generic thanks only"⟩]⟩ := rfl
  rw [hrun]
  refine ⟨?_, by decide, by decide⟩
  rw [round4_eq, Rat.mkRat_eq_div]
  norm_num

theorem le_foldl_max (xs : List ℚ) (a b : ℚ) (h : a ≤ b) : a ≤ xs.foldl max b := by
  induction xs generalizing b with
  | nil => exact h
  | cons x xs ih => exact ih (max b x) (le_trans h (le_max_left b x))

theorem le_foldl_qmax (xs : List ℚ) (a b : ℚ) (h : a ≤ b) : a ≤ xs.foldl qmax b := by
  rw [foldl_qmax_eq]
  exact le_foldl_max xs a b h

theorem topQueries_score_ge (results : List (String × List (String × ℚ)))
    (k : Nat) (thr : ℚ) (t : String × List (String × ℚ) × ℚ)
    (ht : t ∈ topQueries results k thr) : thr ≤ t.2.2 := by
  have h1 : t ∈ sortBy (fun t1 t2 => decide (t2.2.2 ≤ t1.2.2))
      ((results.filterMap (fun qm =>
        if qm.2.any (fun m => thr ≤ m.2)
        then some (qm.1, qm.2.filter (fun m => thr ≤ m.2)) else none)).map
        (fun qm => (qm.1, qm.2, pyMaxQ (qm.2.map (fun m => m.2))))) :=
    (List.take_sublist _ _).subset ht
  have h2 := (perm_sortBy _ _).subset h1
  rcases List.mem_map.mp h2 with ⟨qm, hqm, rfl⟩
  rcases List.mem_filterMap.mp hqm with ⟨orig, horig, hf⟩
  by_cases hc : orig.2.any (fun m => thr ≤ m.2) = true
  · rw [if_pos hc] at hf
    rcases List.any_eq_true.mp hc with ⟨m, hm, hmthr⟩
    have hmq : m ∈ orig.2.filter (fun m => thr ≤ m.2) :=
      List.mem_filter.mpr ⟨hm, hmthr⟩
    cases hf
    simp only []
    rcases hq : orig.2.filter (fun m => thr ≤ m.2) with _ | ⟨x, xs⟩
    · rw [hq] at hmq
      cases hmq
    · have hx : x ∈ orig.2.filter (fun m => thr ≤ m.2) := by
        rw [hq]
        exact List.mem_cons_self x xs
      have hxthr : thr ≤ x.2 := of_decide_eq_true (List.mem_filter.mp hx).2
      simp only [hq, pyMaxQ, List.map_cons]
      exact le_foldl_qmax _ _ _ hxthr
  · rw [if_neg hc] at hf
    cases hf

theorem foldl_max_seed (x : ℚ) (xs : List ℚ) (h : 0 ≤ x) :
    List.foldl max 0 (x :: xs) = List.foldl max x xs := by
  simp only [List.foldl_cons, max_eq_right h]

theorem map_foldl_max (f : ℚ → ℚ) (hf : Monotone f) (b : ℚ) (xs : List ℚ) :
    f (xs.foldl max b) = (xs.map f).foldl max (f b) := by
  induction xs generalizing b with
  | nil => rfl
  | cons x xs ih =>
    simp only [List.foldl_cons, List.map_cons]
    rw [ih (max b x), hf.map_max]

/-- C2 amended: the confidence is the (4-decimal-rounded) maximum best
similarity over *all* adjudicated candidates — not only positively-labeled
ones — and 0.0 exactly when no candidate was adjudicated (equivalently, the
maximum of the recorded per-sentence scores). -/
theorem confidence_max_over_adjudicated :
    ∀ (rawSentences : List RawSent) (results : List (String × List (String × ℚ)))
      (llm : String → String) (top_k : Nat) (threshold : ℚ),
      0 ≤ threshold →
      ((runLLMVerification rawSentences results llm top_k threshold).sentence_verifications = []
        → (runLLMVerification rawSentences results llm top_k threshold).cosine_similarity = 0)
      ∧ ((runLLMVerification rawSentences results llm top_k threshold).sentence_verifications ≠ []
        → (runLLMVerification rawSentences results llm top_k threshold).cosine_similarity
          = pyMaxQ ((runLLMVerification rawSentences results llm top_k
              threshold).sentence_verifications.map (fun r => r.similarity_score))) := by
  intro raw results llm k thr hthr
  by_cases hemp : raw.isEmpty
  · have he : runLLMVerification raw results llm k thr = ⟨"No", 0, []⟩ := by
      simp [runLLMVerification, hemp]
    rw [he]
    exact ⟨fun _ => rfl, fun h => absurd rfl h⟩
  · have hrun : runLLMVerification raw results llm k thr =
        ⟨if (topQueries results k thr).any
            (fun t => containsAnswerYes (pyStripStr (llm t.1))) then "Yes" else "No",
         round4 ((topQueries results k thr).foldl (fun acc t => qmax acc t.2.2) 0),
         (topQueries results k thr).map (verifRecordOf raw llm)⟩ := by
      simp [runLLMVerification, hemp]
    rw [hrun]
    constructor
    · intro h
      have htop : topQueries results k thr = [] := List.map_eq_nil.mp h
      rw [htop]
      simp only [List.foldl_nil]
      rw [round4_eq]
      norm_num
    · intro h
      have htop : topQueries results k thr ≠ [] := fun hc => h (by rw [hc]; rfl)
      rcases hq : topQueries results k thr with _ | ⟨t, ts⟩
      · exact absurd hq htop
      · have ht0 : thr ≤ t.2.2 :=
          topQueries_score_ge results k thr t (by rw [hq]; exact List.mem_cons_self t ts)
        have h0 : (0:ℚ) ≤ t.2.2 := le_trans hthr ht0
        simp only [List.map_cons, List.map_map, List.foldl_cons, pyMaxQ]
        have hseed : qmax 0 t.2.2 = t.2.2 := by
          rw [qmax_eq_max, max_eq_right h0]
        rw [hseed]
        have hfold : (ts.foldl (fun acc t' => qmax acc t'.2.2) t.2.2)
            = ((ts.map (fun t' => t'.2.2)).foldl qmax t.2.2) := by
          rw [List.foldl_map]
        have hcomm : round4 ((ts.map (fun t' => t'.2.2)).foldl qmax t.2.2)
            = ((ts.map (fun t' => t'.2.2)).map round4).foldl qmax (round4 t.2.2) := by
          rw [foldl_qmax_eq, foldl_qmax_eq]
          exact map_foldl_max round4 round4_mono t.2.2 (ts.map (fun t' => t'.2.2))
        rw [hfold, hcomm, List.map_map]
        have hrec : ((verifRecordOf raw llm t).similarity_score) = round4 t.2.2 := rfl
        rw [hrec]
        rfl

/-- Witness for `confidence_max_over_adjudicated` at a concrete run. -/
theorem confidence_max_witness :
    (runLLMVerification c2Raw c2Results c2LLM 7 (mkRat 7 10)).cosine_similarity
      = pyMaxQ ((runLLMVerification c2Raw c2Results c2LLM 7
          (mkRat 7 10)).sentence_verifications.map (fun r => r.similarity_score)) :=
  (confidence_max_over_adjudicated c2Raw c2Results c2LLM 7 (mkRat 7 10) (by decide)).2
    (by decide)

/-! ### Annotation stage (`highlight_service.py`)

The PyMuPDF library is abstracted as a record: `openDoc` parses bytes into a
list of pages (and may fail like `fitz.open`), a page maps a searched text to
the rectangles found (`page.search_for`), and `save` serialises the document
together with the accumulated highlight annotations.  Python exceptions are
`Except.error`; Python list indexing `doc[i]` (with negative wrap-around and
`IndexError`) is `pyListGet`. -/

/-- One extractor sentence as consumed by the highlighter. -/
structure HSent where
  id : String
  page : Int
  text : String
deriving DecidableEq

/-- One llm-output record as consumed by the highlighter. -/
structure HOut where
  sentence_id : String
  llm_response : String
deriving DecidableEq

/-- The abstract PDF library surface used by the highlighter. -/
structure PdfLib where
  openDoc : List Nat → Except String (List (String → List (ℚ × ℚ × ℚ × ℚ)))
  save : List (String → List (ℚ × ℚ × ℚ × ℚ))
    → List (Int × (ℚ × ℚ × ℚ × ℚ)) → List Nat

/-- Python list indexing: non-negative in range, negative wrap-around,
otherwise `IndexError`. -/
def pyListGet (l : List α) (i : Int) : Except String α :=
  if h : 0 ≤ i ∧ i.toNat < l.length then .ok (l.get ⟨i.toNat, h.2⟩)
  else if h' : i < 0 ∧ (i + l.length).toNat < l.length ∧ 0 ≤ i + l.length then
    .ok (l.get ⟨(i + l.length).toNat, h'.2.1⟩)
  else .error "IndexError"

/-- `{s["id"]: s for s in sentences}` then `.get(sid)`: the last sentence
with a given id wins. -/
def sentLookup (sentences : List HSent) (sid : String) : Option HSent :=
  sentences.reverse.find? (fun s => s.id = sid)

/-- `highlight_answer_yes_sentences_from_bytes` (highlight_service.py lines
8-59): filter outputs whose stripped response starts with "Answer: Yes";
with none, return the original bytes; otherwise open the document and, per
id, look up the sentence (skip when absent), index its page (Python
indexing), search for its stripped text (skip when not found) and collect a
highlight per rectangle; finally save.  The function body contains no
`try`/`except`: any raised error propagates. -/
def highlightAnswerYes (lib : PdfLib) (pdfBytes : List Nat)
    (sentences : List HSent) (llmOutputs : List HOut) : Except String (List Nat) :=
  let yesIds := (llmOutputs.filter
    (fun o => pyStartsWith (pyStripStr o.llm_response) "Answer: Yes")).map
    (fun o => o.sentence_id)
  if yesIds.isEmpty then .ok pdfBytes
  else
    match lib.openDoc pdfBytes with
    | .error e => .error e
    | .ok doc =>
      let annotsE := yesIds.foldl
        (fun (acc : Except String (List (Int × (ℚ × ℚ × ℚ × ℚ)))) sid =>
          match acc with
          | .error e => .error e
          | .ok annots =>
            match sentLookup sentences sid with
            | none => .ok annots
            | some s =>
              let pageIndex : Int := s.page - 1
              match pyListGet doc pageIndex with
              | .error e => .error e
              | .ok page =>
                .ok (annots ++ (page (pyStripStr s.text)).map
                  (fun r => (pageIndex, r)))) (.ok [])
      match annotsE with
      | .error e => .error e
      | .ok annots => .ok (lib.save doc annots)

def c4Lib : PdfLib := ⟨fun _ => .ok [fun _ => []], fun _ _ => [99]⟩

def c4Sents : List HSent := [⟨"S1", 5, "hello"⟩]

def c4Outs : List HOut := [⟨"S1", "Answer: Yes - facility use"⟩]

/-- C4 counterexample: a positive sentence whose recorded page (5) is out of
range of a one-page document makes the highlighting step throw, and the
exception propagates — the stage does not fall back to the original bytes. -/
theorem highlight_counterexample :
    highlightAnswerYes c4Lib [1, 2, 3] c4Sents c4Outs = .error "IndexError"
    ∧ highlightAnswerYes c4Lib [1, 2, 3] c4Sents c4Outs ≠ .ok [1, 2, 3] :=
  ⟨rfl, fun h => nomatch h⟩

/-- C4 amended: only the no-positive-sentence path returns the original
bytes — when no record's stripped response starts with "Answer: Yes" the
function returns the input bytes untouched; otherwise an exception raised
by the PDF library (e.g. on opening the document) propagates to the caller,
there is no fallback. -/
theorem highlight_fallback_scope :
    (∀ (lib : PdfLib) (pdfBytes : List Nat) (sentences : List HSent)
        (outs : List HOut),
        (∀ o ∈ outs, pyStartsWith (pyStripStr o.llm_response) "Answer: Yes" = false) →
        highlightAnswerYes lib pdfBytes sentences outs = .ok pdfBytes)
    ∧ (∀ (lib : PdfLib) (pdfBytes : List Nat) (sentences : List HSent)
        (outs : List HOut) (e : String),
        (∃ o ∈ outs, pyStartsWith (pyStripStr o.llm_response) "Answer: Yes" = true) →
        lib.openDoc pdfBytes = .error e →
        highlightAnswerYes lib pdfBytes sentences outs = .error e) := by
  constructor
  · intro lib pdfBytes sentences outs h
    have hfil : outs.filter
        (fun o => pyStartsWith (pyStripStr o.llm_response) "Answer: Yes") = [] := by
      rw [List.filter_eq_nil]
      intro o ho
      rw [h o ho]
      exact Bool.false_ne_true
    simp only [highlightAnswerYes, hfil, List.map_nil, List.isEmpty_nil, if_true]
  · intro lib pdfBytes sentences outs e hyes hopen
    rcases hyes with ⟨o, ho, hP⟩
    have hmem : o ∈ outs.filter
        (fun o => pyStartsWith (pyStripStr o.llm_response) "Answer: Yes") :=
      List.mem_filter.mpr ⟨ho, hP⟩
    have hne : (outs.filter
        (fun o => pyStartsWith (pyStripStr o.llm_response) "Answer: Yes")).map
        (fun o => o.sentence_id) ≠ [] := by
      intro hc
      rw [List.map_eq_nil_iff.mp hc] at hmem
      cases hmem
    have hnemp : ((outs.filter
        (fun o => pyStartsWith (pyStripStr o.llm_response) "Answer: Yes")).map
        (fun o => o.sentence_id)).isEmpty = false := by
      rcases hl : (outs.filter
          (fun o => pyStartsWith (pyStripStr o.llm_response) "Answer: Yes")).map
          (fun o => o.sentence_id) with _ | ⟨x, xs⟩
      · exact absurd hl hne
      · rw [hl]
        rfl
    simp only [highlightAnswerYes, hnemp, Bool.false_eq_true, if_false, hopen]

def c4LibErr : PdfLib := ⟨fun _ => .error "BadPDF", fun _ _ => []⟩

/-- Witness for `highlight_fallback_scope` at concrete inputs. -/
theorem highlight_fallback_scope_witness :
    highlightAnswerYes c4Lib [7] [] [⟨"S1", "Answer: No"⟩] = .ok [7]
    ∧ highlightAnswerYes c4LibErr [7] [] [⟨"S1", "Answer: Yes"⟩] = .error "BadPDF" :=
  ⟨highlight_fallback_scope.1 c4Lib [7] [] [⟨"S1", "Answer: No"⟩] (by decide),
   highlight_fallback_scope.2 c4LibErr [7] [] [⟨"S1", "Answer: Yes"⟩] "BadPDF"
     ⟨⟨"S1", "Answer: Yes"⟩, by decide, by decide⟩ rfl⟩

/-! ### Layout resolver (`extract-sangram.py`) -/

/-- One `page.get_text("blocks")` tuple `(x0, y0, x1, y1, text, ...)`. -/
structure LBlock where
  x0 : ℚ
  y0 : ℚ
  x1 : ℚ
  y1 : ℚ
  txt : String
deriving DecidableEq

/-- `(b[0] + b[2]) / 2` — a block's horizontal center. -/
def blockCenter (b : LBlock) : ℚ :=
  (b.x0 + b.x1) / 2

/-- `sorted(centers)[len(centers)//2]` — the median-of-centers split value. -/
def medOf (blocks : List LBlock) : ℚ :=
  (sortBy (fun a b => decide (a ≤ b)) (blocks.map blockCenter)).getD
    ((blocks.map blockCenter).length / 2) 0

/-- Blocks whose center is `<=` the median (line 49). -/
def leftBlocks (blocks : List LBlock) : List LBlock :=
  blocks.filter (fun b => decide (blockCenter b ≤ medOf blocks))

/-- Blocks whose center is `>` the median (line 50). -/
def rightBlocks (blocks : List LBlock) : List LBlock :=
  blocks.filter (fun b => decide (medOf blocks < blockCenter b))

/-- Mean center of the left cluster (line 53). -/
def cxLeft (blocks : List LBlock) : ℚ :=
  ((leftBlocks blocks).map blockCenter).sum / (leftBlocks blocks).length

/-- Mean center of the right cluster (line 54). -/
def cxRight (blocks : List LBlock) : ℚ :=
  ((rightBlocks blocks).map blockCenter).sum / (rightBlocks blocks).length

/-- `detect_two_columns(page, blocks, min_group, gap_frac)` (lines 42-56):
empty page is single-column; with fewer than `min_group` blocks on either
side of the median the page is single-column (still reporting the median);
otherwise two-column iff the cluster-center separation is at least
`gap_frac` of the page width. -/
def detectTwoColumns (pageRect : ℚ × ℚ × ℚ × ℚ) (blocks : List LBlock)
    (minGroup : Nat) (gapFrac : ℚ) : Bool × Option ℚ :=
  match blocks with
  | [] => (false, none)
  | _ :: _ =>
    let pageW := pageRect.2.2.1 - pageRect.1
    if (leftBlocks blocks).length < minGroup ∨ (rightBlocks blocks).length < minGroup
    then (false, some (medOf blocks))
    else (decide (gapFrac ≤ |cxRight blocks - cxLeft blocks| / pageW),
          some (medOf blocks))

/-- The `(y0, x0)` lexicographic key used by both sorters. -/
def yxLe (b c : LBlock) : Prop :=
  b.y0 < c.y0 ∨ (b.y0 = c.y0 ∧ b.x0 ≤ c.x0)

instance (b c : LBlock) : Decidable (yxLe b c) := by
  unfold yxLe
  infer_instance

/-- `col = 0 if ((x0+x1)/2) <= median_x else 1` (line 67). -/
def colOf (b : LBlock) (medianX : ℚ) : Nat :=
  if blockCenter b ≤ medianX then 0 else 1

/-- The `(col, y0, x0)` lexicographic comparator of `sort_blocks_two_col`. -/
def twoColLe (medianX : ℚ) (b c : LBlock) : Bool :=
  decide (colOf b medianX < colOf c medianX
    ∨ (colOf b medianX = colOf c medianX ∧ yxLe b c))

/-- `sort_blocks_two_col(blocks, median_x)` (lines 63-71): stable sort by
`(col, y0, x0)`; the enrichment round-trips every block unchanged. -/
def sortBlocksTwoCol (blocks : List LBlock) (medianX : ℚ) : List LBlock :=
  sortBy (twoColLe medianX) blocks

/-- The `(y0, x0)` comparator of `sort_blocks_single_col`. -/
def singleColLe (b c : LBlock) : Bool :=
  decide (yxLe b c)

/-- `sort_blocks_single_col(blocks)` (lines 58-61): stable sort by `(y0, x0)`. -/
def sortBlocksSingleCol (blocks : List LBlock) : List LBlock :=
  sortBy singleColLe blocks

/-- Modelled from the spec: "the midpoint between the two cluster centers",
the split value §4.1 claims the two-column classification compares against
(the code instead passes the median `med` to `sort_blocks_two_col`). -/
def specClusterMidpoint (blocks : List LBlock) : ℚ :=
  (cxLeft blocks + cxRight blocks) / 2

def c8Blocks : List LBlock :=
  [⟨0, 10, 0, 0, "a"⟩, ⟨0, 20, 0, 0, "b"⟩, ⟨0, 30, 0, 0, "c"⟩, ⟨0, 40, 0, 0, "d"⟩,
   ⟨30, 5, 50, 0, "m"⟩,
   ⟨45, 1, 55, 0, "p"⟩, ⟨45, 2, 55, 0, "q"⟩, ⟨45, 3, 55, 0, "r"⟩, ⟨45, 4, 55, 0, "s"⟩]

def c8Rect : ℚ × ℚ × ℚ × ℚ := (0, 0, 100, 100)

/-- C8 counterexample: on this page the layout is detected as two-column
with median 40, the spec's cluster-center midpoint is 29, and classifying
against the midpoint instead of the median moves the block "m" (center 40)
from the left column to the right column, changing the emitted order. -/
theorem twocol_counterexample :
    detectTwoColumns c8Rect c8Blocks 4 (0.18 : ℚ) = (true, some 40)
    ∧ specClusterMidpoint c8Blocks = 29
    ∧ (sortBlocksTwoCol c8Blocks 40).map (fun b => b.txt)
        = ["m", "a", "b", "c", "d", "p", "q", "r", "s"]
    ∧ (sortBlocksTwoCol c8Blocks (specClusterMidpoint c8Blocks)).map (fun b => b.txt)
        = ["a", "b", "c", "d", "p", "q", "r", "s", "m"]
    ∧ sortBlocksTwoCol c8Blocks 40
        ≠ sortBlocksTwoCol c8Blocks (specClusterMidpoint c8Blocks) := by
  with_unfolding_all decide

theorem yxLe_total (b c : LBlock) : yxLe b c ∨ yxLe c b := by
  unfold yxLe
  rcases lt_trichotomy b.y0 c.y0 with h | h | h
  · exact Or.inl (Or.inl h)
  · rcases le_total b.x0 c.x0 with h' | h'
    · exact Or.inl (Or.inr ⟨h, h'⟩)
    · exact Or.inr (Or.inr ⟨h.symm, h'⟩)
  · exact Or.inr (Or.inl h)

theorem yxLe_trans (a b c : LBlock) (h1 : yxLe a b) (h2 : yxLe b c) : yxLe a c := by
  unfold yxLe at *
  rcases h1 with h1 | ⟨h1y, h1x⟩ <;> rcases h2 with h2 | ⟨h2y, h2x⟩
  · exact Or.inl (lt_trans h1 h2)
  · exact Or.inl (by rw [← h2y]; exact h1)
  · exact Or.inl (by rw [h1y]; exact h2)
  · exact Or.inr ⟨h1y.trans h2y, le_trans h1x h2x⟩

theorem twoColLe_total (m : ℚ) (b c : LBlock) :
    twoColLe m b c = true ∨ twoColLe m c b = true := by
  unfold twoColLe
  rcases lt_trichotomy (colOf b m) (colOf c m) with h | h | h
  · exact Or.inl (decide_eq_true (Or.inl h))
  · rcases yxLe_total b c with h' | h'
    · exact Or.inl (decide_eq_true (Or.inr ⟨h, h'⟩))
    · exact Or.inr (decide_eq_true (Or.inr ⟨h.symm, h'⟩))
  · exact Or.inr (decide_eq_true (Or.inl h))

theorem twoColLe_trans (m : ℚ) (a b c : LBlock)
    (hab : twoColLe m a b = true) (hbc : twoColLe m b c = true) :
    twoColLe m a c = true := by
  unfold twoColLe at *
  have h1 := of_decide_eq_true hab
  have h2 := of_decide_eq_true hbc
  refine decide_eq_true ?_
  rcases h1 with h1 | ⟨h1e, h1r⟩ <;> rcases h2 with h2 | ⟨h2e, h2r⟩
  · exact Or.inl (lt_trans h1 h2)
  · exact Or.inl (by rw [← h2e]; exact h1)
  · exact Or.inl (by rw [h1e]; exact h2)
  · exact Or.inr ⟨h1e.trans h2e, yxLe_trans a b c h1r h2r⟩

/-- C8 amended: detection is exactly "at least 4 blocks on each side of the
median of centers, and cluster centers separated by at least `gap_frac` of
the page width"; but in the two-column case blocks are classified against
the *median of block centers* (the value `detect_two_columns` returns), not
the midpoint between the two cluster centers; each column is sorted
top-to-bottom (ties left-to-right) with the left column first, and the
single-column case sorts top-to-bottom then left-to-right. -/
theorem layout_two_column_rule :
    (∀ (rect : ℚ × ℚ × ℚ × ℚ) (blocks : List LBlock) (g : ℚ),
        0 < rect.2.2.1 - rect.1 → blocks ≠ [] →
        ((detectTwoColumns rect blocks 4 g).1 = true ↔
          (4 ≤ (leftBlocks blocks).length ∧ 4 ≤ (rightBlocks blocks).length ∧
            g * (rect.2.2.1 - rect.1) ≤ |cxRight blocks - cxLeft blocks|)))
    ∧ (∀ (blocks : List LBlock) (m : ℚ),
        List.Perm (sortBlocksTwoCol blocks m) blocks
        ∧ (sortBlocksTwoCol blocks m).Pairwise (fun b c => twoColLe m b c = true))
    ∧ (∀ blocks : List LBlock,
        List.Perm (sortBlocksSingleCol blocks) blocks
        ∧ (sortBlocksSingleCol blocks).Pairwise
            (fun b c => singleColLe b c = true)) := by
  refine ⟨?_, ?_, ?_⟩
  · intro rect blocks g hW hne
    rcases blocks with _ | ⟨b, bs⟩
    · exact absurd rfl hne
    · by_cases hc : (leftBlocks (b :: bs)).length < 4
        ∨ (rightBlocks (b :: bs)).length < 4
      · have hdet : (detectTwoColumns rect (b :: bs) 4 g).1 = false := by
          simp only [detectTwoColumns, hc, if_true]
        rw [hdet]
        constructor
        · intro h
          cases h
        · rintro ⟨h1, h2, _⟩
          rcases hc with hc | hc
          · exact absurd h1 (not_le.mpr hc)
          · exact absurd h2 (not_le.mpr hc)
      · have hdet : (detectTwoColumns rect (b :: bs) 4 g).1 =
            decide (g ≤ |cxRight (b :: bs) - cxLeft (b :: bs)|
              / (rect.2.2.1 - rect.1)) := by
          simp only [detectTwoColumns, hc, if_false]
        rw [hdet]
        push_neg at hc
        constructor
        · intro h
          exact ⟨hc.1, hc.2, (le_div_iff hW).mp (of_decide_eq_true h)⟩
        · rintro ⟨_, _, h3⟩
          exact decide_eq_true ((le_div_iff hW).mpr h3)
  · intro blocks m
    exact ⟨perm_sortBy _ _,
      pairwise_sortBy (twoColLe m) (twoColLe_total m) (twoColLe_trans m) blocks⟩
  · intro blocks
    refine ⟨perm_sortBy _ _, pairwise_sortBy singleColLe ?_ ?_ blocks⟩
    · intro a b
      rcases yxLe_total a b with h | h
      · exact Or.inl (decide_eq_true h)
      · exact Or.inr (decide_eq_true h)
    · intro a b c h1 h2
      exact decide_eq_true (yxLe_trans a b c (of_decide_eq_true h1) (of_decide_eq_true h2))

/-- Witness for `layout_two_column_rule` at the concrete page. -/
theorem layout_two_column_rule_witness :
    (detectTwoColumns c8Rect c8Blocks 4 (0.18 : ℚ)).1 = true ↔
      (4 ≤ (leftBlocks c8Blocks).length ∧ 4 ≤ (rightBlocks c8Blocks).length ∧
        (0.18 : ℚ) * (c8Rect.2.2.1 - c8Rect.1)
          ≤ |cxRight c8Blocks - cxLeft c8Blocks|) :=
  layout_two_column_rule.1 c8Rect c8Blocks (0.18 : ℚ)
    (by norm_num [c8Rect]) (by decide)

/-! ### Sentence indexer (`src/extraction/sentences.py`)

Page text is `List Char`.  The NFKC normalisation and the SHA-1 based
`_hash16 ∘ _norm_for_hash` composite are not embeddable (Unicode tables,
cryptographic hash); they are explicit function parameters `nfkc` and
`hashOf` of the page iterator, which is quantified over them in the
invariant theorem and instantiated with the identity (exact on the ASCII
scenario text) for the concrete scenario. -/

/-- One span of a PyMuPDF line: its text and bounding box. -/
structure Span where
  text : String
  bbox : ℚ × ℚ × ℚ × ℚ
deriving DecidableEq

/-- One PyMuPDF line (the `"lines"` entries of a block; a block without a
`"lines"` key contributes the empty list). -/
structure PLine where
  spans : List Span
deriving DecidableEq

/-- A sentence record (`SentRecord` dataclass); `text` is the stripped
chunk as characters. -/
structure SentRecord where
  id : String
  page : Nat
  text : List Char
  bbox : ℚ × ℚ × ℚ × ℚ
  page_char_start : Nat
  page_char_end : Nat
  global_char_start : Nat
  global_char_end : Nat
  hash16 : String
deriving DecidableEq

/-- `_line_text`: concatenate span texts, then `strip()`. -/
def lineText (ln : PLine) : List Char :=
  pyStrip ((ln.spans.map (fun sp => sp.text.data)).join)

def qListMin (l : List ℚ) : ℚ :=
  match l with
  | [] => 0
  | x :: xs => xs.foldl min x

def qListMax (l : List ℚ) : ℚ :=
  match l with
  | [] => 0
  | x :: xs => xs.foldl max x

/-- `_line_bbox`: min/max over the spans' corner coordinates (only called
on lines with non-empty stripped text, hence non-empty spans). -/
def lineBBox (ln : PLine) : ℚ × ℚ × ℚ × ℚ :=
  let xs := ln.spans.map (fun sp => sp.bbox.1) ++ ln.spans.map (fun sp => sp.bbox.2.2.1)
  let ys := ln.spans.map (fun sp => sp.bbox.2.1) ++ ln.spans.map (fun sp => sp.bbox.2.2.2)
  (qListMin xs, qListMin ys, qListMax xs, qListMax ys)

/-- The `(start_idx, end_idx, x0, y0, x1, y1)` entries of `line_bboxes`. -/
structure LineBox where
  s : Nat
  e : Nat
  x0 : ℚ
  y0 : ℚ
  x1 : ℚ
  y1 : ℚ
deriving DecidableEq

/-- Lines 81-97 of sentences.py: reconstruct the page text — per non-empty
stripped line, append its NFKC-normalised text and record its character
span, then append `"\n"` (cursor advances by the text length plus one). -/
def buildPageAux (nfkc : List Char → List Char) :
    List PLine → Nat → List Char × List LineBox
  | [], _ => ([], [])
  | ln :: rest, cursor =>
    let t0 := lineText ln
    if t0 = [] then buildPageAux nfkc rest cursor
    else
      let t := nfkc t0
      let b := lineBBox ln
      let endIdx := cursor + t.length
      let built := buildPageAux nfkc rest (endIdx + 1)
      (t ++ '\n' :: built.1, ⟨cursor, endIdx, b.1, b.2.1, b.2.2.1, b.2.2.2⟩ :: built.2)

/-- `_bbox_for_span`: union of the boxes of every line overlapping the
character span, `(0,0,0,0)` when none does. -/
def bboxForSpan (lineBoxes : List LineBox) (spanStart spanEnd : Nat) :
    ℚ × ℚ × ℚ × ℚ :=
  let over := lineBoxes.filter (fun lb => !(spanEnd ≤ lb.s || lb.e ≤ spanStart))
  match over with
  | [] => (0, 0, 0, 0)
  | _ :: _ =>
    (qListMin (over.map (fun lb => lb.x0)), qListMin (over.map (fun lb => lb.y0)),
     qListMax (over.map (fun lb => lb.x1)), qListMax (over.map (fun lb => lb.y1)))

/-- `[\.!?]` — the sentence-ending punctuation class. -/
def isPunct (c : Char) : Bool :=
  c = '.' || c = '!' || c = '?'

/-- The boundary lookahead class `[A-Z(“"']` (likely sentence starter). -/
def isStarter (c : Char) : Bool :=
  ('A' ≤ c && c ≤ 'Z') || c = '(' || c = '“' || c = '"' || c = '\''

/-- `_SENT_END_RE` at one position: punctuation, then a maximal non-empty
whitespace run, then a starter (the greedy `\s+` with the zero-width
lookahead matches exactly the maximal run, since whitespace is never a
starter).  Returns the match end `punct + 1 + run`. -/
def matchAt (text : List Char) (i : Nat) : Option Nat :=
  match text.drop i with
  | [] => none
  | c :: rest =>
    if isPunct c then
      let ws := (rest.takeWhile pyIsSpace).length
      if ws = 0 then none
      else
        match rest.drop ws with
        | [] => none
        | d :: _ => if isStarter d then some (i + 1 + ws) else none
    else none

/-- `finditer` scan: try each position left to right, resume after a
match's end (fuelled; `text.length + 1` fuel suffices since every step
advances the position). -/
def scanMatches (text : List Char) : Nat → Nat → List (Nat × Nat)
  | _, 0 => []
  | i, f + 1 =>
    if text.length ≤ i then []
    else
      match matchAt text i with
      | some e => (i, e) :: scanMatches text e f
      | none => scanMatches text (i + 1) f

def findMatches (text : List Char) : List (Nat × Nat) :=
  scanMatches text 0 (text.length + 1)

/-- The `_ABBR` alternation, lowercased (the regex is case-insensitive;
`"et al"` can never match a `[A-Za-z.]+` word — kept faithfully). -/
def abbrevList : List String :=
  ["mr", "mrs", "ms", "dr", "prof", "sr", "jr", "st", "mt", "vs", "no",
   "inc", "ltd", "fig", "eq", "ref", "et al", "i.e", "e.g", "cf",
   "ph.d", "m.sc", "u.s", "u.k"]

/-- `[A-Za-z\.]` — a character of the looked-back "word". -/
def isWordChar (c : Char) : Bool :=
  ('A' ≤ c && c ≤ 'Z') || ('a' ≤ c && c ≤ 'z') || c = '.'

/-- `re.search(r"([A-Za-z\.]+)$", chunk)`: the maximal word-character
suffix. -/
def lastWord (chunk : List Char) : List Char :=
  (chunk.reverse.takeWhile isWordChar).reverse

/-- `_is_abbrev_before` (lines 51-68): look back at most 25 characters,
take the trailing word, and test it (and the word without its trailing
dot) case-insensitively against the abbreviation list. -/
def isAbbrevBefore (text : List Char) (punctPos : Nat) : Bool :=
  let startScan := punctPos - 25
  let chunk := (text.drop startScan).take (punctPos - startScan)
  let word := lastWord chunk
  if word = [] then false
  else
    let wordNoDot := if word.getLast? = some '.' then word.dropLast else word
    abbrevList.any (fun a => a.data = word.map Char.toLower)
      || abbrevList.any (fun a => a.data = wordNoDot.map Char.toLower)

/-- Lines 126-137: walk the matches; an abbreviation before the punctuation
suppresses the split (the span start does not advance), otherwise emit the
span `[start, punct+1)` and continue from the match end; finally the tail
span `[start, page_len)` when non-empty. -/
def spansFromMatches (text : List Char) :
    List (Nat × Nat) → Nat → List (Nat × Nat)
  | [], start => if start < text.length then [(start, text.length)] else []
  | m :: rest, start =>
    if isAbbrevBefore text m.1 then spansFromMatches text rest start
    else (start, m.1 + 1) :: spansFromMatches text rest m.2

def digitChar (d : Nat) : Char :=
  Char.ofNat (48 + d)

/-- Decimal digits of `n` (fuelled; `n + 1` fuel suffices). -/
def natDigitsAux : Nat → Nat → List Char
  | _, 0 => []
  | n, f + 1 => if n < 10 then [digitChar n] else natDigitsAux (n / 10) f ++ [digitChar (n % 10)]

def natDigits (n : Nat) : List Char :=
  natDigitsAux n (n + 1)

/-- Python `f"{n:0wd}"` zero-padding. -/
def zeroPad (w : Nat) (n : Nat) : List Char :=
  List.replicate (w - (natDigits n).length) '0' ++ natDigits n

/-- `f"S{pno+1:03d}-{local_idx:05d}"` — the record identifier. -/
def mkId (page idx : Nat) : String :=
  ⟨'S' :: (zeroPad 3 page ++ '-' :: zeroPad 5 idx)⟩

/-- `page_text[span_start:span_end].strip()`. -/
def sliceStrip (text : List Char) (a b : Nat) : List Char :=
  pyStrip ((text.drop a).take (b - a))

/-- `add_span` over the span list (lines 105-124): whitespace-only chunks
are dropped without consuming an index; retained chunks get the next dense
local index (pre-incremented, so the first record has index 1). -/
def recordsFromSpans (pno gcur : Nat) (text : List Char) (boxes : List LineBox)
    (hashOf : List Char → String) :
    List (Nat × Nat) → Nat → List SentRecord
  | [], _ => []
  | sp :: rest, idx =>
    let chunk := sliceStrip text sp.1 sp.2
    if chunk = [] then recordsFromSpans pno gcur text boxes hashOf rest idx
    else
      { id := mkId (pno + 1) (idx + 1), page := pno + 1, text := chunk,
        bbox := bboxForSpan boxes sp.1 sp.2,
        page_char_start := sp.1, page_char_end := sp.2,
        global_char_start := gcur + sp.1, global_char_end := gcur + sp.2,
        hash16 := hashOf chunk } ::
        recordsFromSpans pno gcur text boxes hashOf rest (idx + 1)

/-- `iter_page_sentences(doc, pno, global_cursor)` (lines 70-141): returns
`(records, new_global_cursor, reconstructed_page_text)`; the cursor
advances by the page length plus the fixed 2-character inter-page gap. -/
def iterPageSentences (nfkc : List Char → List Char)
    (hashOf : List Char → String) (blocks : List (List PLine))
    (pno : Nat) (globalCursor : Nat) :
    List SentRecord × Nat × List Char :=
  let built := buildPageAux nfkc blocks.join 0
  let spans := spansFromMatches built.1 (findMatches built.1) 0
  let recs := recordsFromSpans pno globalCursor built.1 built.2 hashOf spans 0
  (recs, globalCursor + built.1.length + 2, built.1)

/-- The per-document loop of `cli.py` (lines 48-53): pages in order, the
global cursor threaded through, all records concatenated. -/
def docSentencesAux (nfkc : List Char → List Char)
    (hashOf : List Char → String) :
    List (List (List PLine)) → Nat → Nat → List SentRecord
  | [], _, _ => []
  | pg :: rest, pno, gcur =>
    (iterPageSentences nfkc hashOf pg pno gcur).1
      ++ docSentencesAux nfkc hashOf rest (pno + 1)
          (iterPageSentences nfkc hashOf pg pno gcur).2.1

def docSentences (nfkc : List Char → List Char)
    (hashOf : List Char → String) (pages : List (List (List PLine))) :
    List SentRecord :=
  docSentencesAux nfkc hashOf pages 0 0

/-- The one-page scenario document: one block, one line, one span. -/
def c7Line : PLine :=
  ⟨[⟨"The authors thank Dr. Smith for help. This work used the CMCA electron microscope facility.", (0, 0, 10, 10)⟩]⟩

def c7Blocks : List (List PLine) := [[c7Line]]

/-- C7: the scenario page segments into exactly the two expected records —
`S001-00001` ends at "help." and `S001-00002` is the CMCA sentence — and
the candidate boundary after "Dr." (punctuation index 20, a real
`_SENT_END_RE` match, end 22) is suppressed by the abbreviation check. -/
theorem scenario_two_sentences :
    (iterPageSentences (fun l => l) (fun _ => "") c7Blocks 0 0).1.map (fun r => r.id)
      = ["S001-00001", "S001-00002"]
    ∧ (iterPageSentences (fun l => l) (fun _ => "") c7Blocks 0 0).1.map (fun r => r.text)
      = ["The authors thank Dr. Smith for help.".data,
         "This work used the CMCA electron microscope facility.".data]
    ∧ isAbbrevBefore (iterPageSentences (fun l => l) (fun _ => "") c7Blocks 0 0).2.2 20 = true
    ∧ matchAt (iterPageSentences (fun l => l) (fun _ => "") c7Blocks 0 0).2.2 20 = some 22 := by
  decide

/-- Invariant of the match list: from lower bound `s`, each match starts no
earlier, spans at least 2 characters, and the next match starts at or after
its end. -/
def MOrd : Nat → List (Nat × Nat) → Prop
  | _, [] => True
  | s, m :: rest => s ≤ m.1 ∧ m.1 + 2 ≤ m.2 ∧ MOrd m.2 rest

theorem MOrd_mono (s' s : Nat) (ms : List (Nat × Nat)) (h : s' ≤ s)
    (hm : MOrd s ms) : MOrd s' ms := by
  cases ms with
  | nil => trivial
  | cons m rest => exact ⟨le_trans h hm.1, hm.2.1, hm.2.2⟩

theorem matchAt_ge (text : List Char) (i e : Nat) (h : matchAt text i = some e) :
    i + 2 ≤ e := by
  rcases hdrop : text.drop i with _ | ⟨c, rest⟩ <;>
    simp only [matchAt, hdrop] at h
  · cases h
  · by_cases hp : isPunct c = true
    · rw [if_pos hp] at h
      by_cases hw : (rest.takeWhile pyIsSpace).length = 0
      · rw [if_pos hw] at h
        cases h
      · rw [if_neg hw] at h
        rcases hdrop2 : rest.drop (rest.takeWhile pyIsSpace).length
            with _ | ⟨d, rest2⟩ <;> simp only [hdrop2] at h
        · cases h
        · by_cases hs : isStarter d = true
          · rw [if_pos hs] at h
            injection h with h
            omega
          · rw [if_neg hs] at h
            cases h
    · rw [if_neg hp] at h
      cases h

theorem scanMatches_mord (text : List Char) :
    ∀ (fuel i : Nat), MOrd i (scanMatches text i fuel) := by
  intro fuel
  induction fuel with
  | zero =>
    intro i
    simp only [scanMatches]
    trivial
  | succ f ih =>
    intro i
    simp only [scanMatches]
    by_cases hlen : text.length ≤ i
    · rw [if_pos hlen]
      trivial
    · rw [if_neg hlen]
      rcases hm : matchAt text i with _ | e
    
      · exact MOrd_mono i (i + 1) _ (Nat.le_succ i) (ih (i + 1))
      · exact ⟨le_refl i, matchAt_ge text i e hm, ih e⟩

theorem findMatches_mord (text : List Char) : MOrd 0 (findMatches text) :=
  scanMatches_mord text (text.length + 1) 0

/-- Invariant of the produced spans: from lower bound `s`, each span is
non-degenerate and spans are chained end-to-start. -/
def SpansOk : Nat → List (Nat × Nat) → Prop
  | _, [] => True
  | s, sp :: rest => s ≤ sp.1 ∧ sp.1 < sp.2 ∧ SpansOk sp.2 rest

theorem SpansOk_mono (s' s : Nat) (l : List (Nat × Nat)) (h : s' ≤ s)
    (hl : SpansOk s l) : SpansOk s' l := by
  cases l with
  | nil => trivial
  | cons sp rest => exact ⟨le_trans h hl.1, hl.2.1, hl.2.2⟩

theorem spansFromMatches_ok (text : List Char) :
    ∀ (ms : List (Nat × Nat)) (start : Nat), MOrd start ms →
      SpansOk start (spansFromMatches text ms start) := by
  intro ms
  induction ms with
  | nil =>
    intro start _
    simp only [spansFromMatches]
    by_cases hs : start < text.length
    · rw [if_pos hs]
      exact ⟨le_refl start, hs, trivial⟩
    · rw [if_neg hs]
      trivial
  | cons m rest ih =>
    intro start hm
    rcases hm with ⟨hs, hlen, hrest⟩
    simp only [spansFromMatches]
    by_cases ha : isAbbrevBefore text m.1 = true
    · rw [if_pos ha]
      exact ih start (MOrd_mono start m.2 rest (by omega) hrest)
    · rw [if_neg ha]
      refine ⟨le_refl start, by omega, ?_⟩
      exact SpansOk_mono (m.1 + 1) m.2 _ (by omega) (ih m.2 hrest)

theorem records_lb (pno gcur : Nat) (text : List Char) (boxes : List LineBox)
    (hashOf : List Char → String) :
    ∀ (spans : List (Nat × Nat)) (s idx : Nat), SpansOk s spans →
      ∀ r ∈ recordsFromSpans pno gcur text boxes hashOf spans idx,
        s ≤ r.page_char_start ∧ r.page_char_start < r.page_char_end := by
  intro spans
  induction spans with
  | nil =>
    intro s idx _ r hr
    simp [recordsFromSpans] at hr
  | cons sp rest ih =>
    intro s idx hok r hr
    rcases hok with ⟨hs, hlt, hrest⟩
    simp only [recordsFromSpans] at hr
    by_cases hc : sliceStrip text sp.1 sp.2 = []
    · rw [if_pos hc] at hr
      have := ih sp.2 idx hrest r hr
      exact ⟨le_trans (le_trans hs (le_of_lt hlt)) this.1, this.2⟩
    · rw [if_neg hc] at hr
      rcases List.mem_cons.mp hr with hr | hr
      · subst hr
        exact ⟨hs, hlt⟩
      · have := ih sp.2 (idx + 1) hrest r hr
        exact ⟨le_trans (le_trans hs (le_of_lt hlt)) this.1, this.2⟩

theorem records_pairwise (pno gcur : Nat) (text : List Char) (boxes : List LineBox)
    (hashOf : List Char → String) :
    ∀ (spans : List (Nat × Nat)) (s idx : Nat), SpansOk s spans →
      (recordsFromSpans pno gcur text boxes hashOf spans idx).Pairwise
        (fun r1 r2 => r1.page_char_end ≤ r2.page_char_start) := by
  intro spans
  induction spans with
  | nil =>
    intro s idx _
    simp [recordsFromSpans]
  | cons sp rest ih =>
    intro s idx hok
    rcases hok with ⟨hs, hlt, hrest⟩
    simp only [recordsFromSpans]
    by_cases hc : sliceStrip text sp.1 sp.2 = []
    · rw [if_pos hc]
      exact ih sp.2 idx hrest
    · rw [if_neg hc]
      refine List.Pairwise.cons ?_ (ih sp.2 (idx + 1) hrest)
      intro r hr
      exact (records_lb pno gcur text boxes hashOf rest sp.2 (idx + 1) hrest r hr).1

theorem records_ids (pno gcur : Nat) (text : List Char) (boxes : List LineBox)
    (hashOf : List Char → String) :
    ∀ (spans : List (Nat × Nat)) (idx : Nat),
      (recordsFromSpans pno gcur text boxes hashOf spans idx).map (fun r => r.id)
        = (List.range (recordsFromSpans pno gcur text boxes hashOf spans idx).length).map
            (fun j => mkId (pno + 1) (idx + j + 1)) := by
  intro spans
  induction spans with
  | nil =>
    intro idx
    simp [recordsFromSpans]
  | cons sp rest ih =>
    intro idx
    simp only [recordsFromSpans]
    by_cases hc : sliceStrip text sp.1 sp.2 = []
    · rw [if_pos hc]
      exact ih idx
    · rw [if_neg hc]
      simp only [List.map_cons, List.length_cons, List.range_succ_eq_map,
        List.map_map]
      refine congrArg₂ List.cons (by simp) ?_
      rw [ih (idx + 1)]
      refine List.map_congr_left ?_
      intro j _
      simp only [Function.comp]
      refine congrArg (mkId (pno + 1)) (by omega)

/-- Decimal value of a digit string. -/
def digitsVal (l : List Char) : Nat :=
  l.foldl (fun acc c => 10 * acc + (c.toNat - 48)) 0

theorem digitChar_toNat (d : Nat) (h : d < 10) : (digitChar d).toNat = 48 + d := by
  interval_cases d <;> decide

theorem digitsVal_append_last (l : List Char) (c : Char) :
    digitsVal (l ++ [c]) = 10 * digitsVal l + (c.toNat - 48) := by
  unfold digitsVal
  rw [List.foldl_append]
  rfl

theorem digitsVal_natDigitsAux :
    ∀ (f n : Nat), n < f → digitsVal (natDigitsAux n f) = n := by
  intro f
  induction f with
  | zero =>
    intro n h
    omega
  | succ f ih =>
    intro n h
    simp only [natDigitsAux]
    by_cases h10 : n < 10
    · rw [if_pos h10]
      unfold digitsVal
      simp only [List.foldl_cons, List.foldl_nil]
      rw [digitChar_toNat n h10]
      omega
    · rw [if_neg h10]
      rw [digitsVal_append_last]
      have hdiv : n / 10 < f := by
        have h1 : n / 10 < n := Nat.div_lt_self (by omega) (by omega)
        omega
      rw [ih (n / 10) hdiv, digitChar_toNat (n % 10) (Nat.mod_lt n (by omega))]
      omega

theorem natDigitsAux_mem_range :
    ∀ (f n : Nat), n < f → ∀ c ∈ natDigitsAux n f, 48 ≤ c.toNat ∧ c.toNat ≤ 57 := by
  intro f
  induction f with
  | zero =>
    intro n h
    omega
  | succ f ih =>
    intro n h c hc
    simp only [natDigitsAux] at hc
    by_cases h10 : n < 10
    · rw [if_pos h10] at hc
      rcases List.mem_singleton.mp hc with rfl
      rw [digitChar_toNat n h10]
      omega
    · rw [if_neg h10] at hc
      rcases List.mem_append.mp hc with hc | hc
      · have hdiv : n / 10 < f := by
          have h1 : n / 10 < n := Nat.div_lt_self (by omega) (by omega)
          omega
        exact ih (n / 10) hdiv c hc
      · rcases List.mem_singleton.mp hc with rfl
        rw [digitChar_toNat (n % 10) (Nat.mod_lt n (by omega))]
        omega

theorem zeroPad_mem_range (w n : Nat) (c : Char) (hc : c ∈ zeroPad w n) :
    48 ≤ c.toNat ∧ c.toNat ≤ 57 := by
  unfold zeroPad at hc
  rcases List.mem_append.mp hc with hc | hc
  · rcases List.eq_of_mem_replicate hc with rfl
    decide
  · exact natDigitsAux_mem_range (n + 1) n (Nat.lt_succ_self n) c hc

theorem zeroPad_ne_dash (w n : Nat) (c : Char) (hc : c ∈ zeroPad w n) :
    c ≠ '-' := by
  intro hceq
  have := zeroPad_mem_range w n c hc
  rw [hceq] at this
  exact absurd this (by decide)

theorem digitsVal_zeroPad (w n : Nat) : digitsVal (zeroPad w n) = n := by
  unfold zeroPad digitsVal
  rw [List.foldl_append]
  have hz : ∀ (k : Nat), List.foldl (fun acc c => 10 * acc + (c.toNat - 48)) 0
      (List.replicate k '0') = 0 := by
    intro k
    induction k with
    | zero => rfl
    | succ k ihk =>
      rw [List.replicate_succ, List.foldl_cons]
      simpa using ihk
  rw [hz]
  exact digitsVal_natDigitsAux (n + 1) n (Nat.lt_succ_self n)

theorem append_marker_inj (m : Char) :
    ∀ (xs ys as bs : List Char), m ∉ xs → m ∉ ys →
      xs ++ m :: as = ys ++ m :: bs → xs = ys ∧ as = bs := by
  intro xs
  induction xs with
  | nil =>
    intro ys as bs _ hys h
    cases ys with
    | nil =>
      simp only [List.nil_append] at h
      exact ⟨rfl, (List.cons.injEq _ _ _ _).mp h |>.2⟩
    | cons y ys' =>
      simp only [List.nil_append, List.cons_append] at h
      rcases (List.cons.injEq _ _ _ _).mp h with ⟨rfl, _⟩
      exact absurd (List.mem_cons_self _ _) hys
  | cons x xs' ih =>
    intro ys as bs hxs hys h
    cases ys with
    | nil =>
      simp only [List.cons_append, List.nil_append] at h
      rcases (List.cons.injEq _ _ _ _).mp h with ⟨rfl, _⟩
      exact absurd (List.mem_cons_self _ _) hxs
    | cons y ys' =>
      simp only [List.cons_append] at h
      rcases (List.cons.injEq _ _ _ _).mp h with ⟨rfl, h2⟩
      have hxs' : m ∉ xs' := fun hm => hxs (List.mem_cons_of_mem _ hm)
      have hys' : m ∉ ys' := fun hm => hys (List.mem_cons_of_mem _ hm)
      rcases ih ys' as bs hxs' hys' h2 with ⟨rfl, rfl⟩
      exact ⟨rfl, rfl⟩

theorem mkId_inj (p i q j : Nat) (h : mkId p i = mkId q j) : p = q ∧ i = j := by
  unfold mkId at h
  have hdata : 'S' :: (zeroPad 3 p ++ '-' :: zeroPad 5 i)
      = 'S' :: (zeroPad 3 q ++ '-' :: zeroPad 5 j) := congrArg String.data h
  rcases (List.cons.injEq _ _ _ _).mp hdata with ⟨_, h2⟩
  rcases append_marker_inj '-' (zeroPad 3 p) (zeroPad 3 q) (zeroPad 5 i)
      (zeroPad 5 j)
      (fun hm => zeroPad_ne_dash 3 p '-' hm rfl)
      (fun hm => zeroPad_ne_dash 3 q '-' hm rfl) h2 with ⟨hpq, hij⟩
  constructor
  · have := congrArg digitsVal hpq
    rwa [digitsVal_zeroPad, digitsVal_zeroPad] at this
  · have := congrArg digitsVal hij
    rwa [digitsVal_zeroPad, digitsVal_zeroPad] at this

theorem records_id_nodup (pno gcur : Nat) (text : List Char) (boxes : List LineBox)
    (hashOf : List Char → String) (spans : List (Nat × Nat)) (idx : Nat) :
    (recordsFromSpans pno gcur text boxes hashOf spans idx).Pairwise
      (fun r1 r2 => r1.id ≠ r2.id) := by
  rw [← List.pairwise_map (f := fun r : SentRecord => r.id)]
  rw [records_ids]
  refine List.Nodup.map ?_ (List.nodup_range _)
  intro a b hab
  have := (mkId_inj _ _ _ _ hab).2
  omega

theorem records_id_shape (pno gcur : Nat) (text : List Char) (boxes : List LineBox)
    (hashOf : List Char → String) :
    ∀ (spans : List (Nat × Nat)) (idx : Nat) (r : SentRecord),
      r ∈ recordsFromSpans pno gcur text boxes hashOf spans idx →
      ∃ k, r.id = mkId (pno + 1) (k + 1) := by
  intro spans
  induction spans with
  | nil =>
    intro idx r hr
    simp [recordsFromSpans] at hr
  | cons sp rest ih =>
    intro idx r hr
    simp only [recordsFromSpans] at hr
    by_cases hc : sliceStrip text sp.1 sp.2 = []
    · rw [if_pos hc] at hr
      exact ih idx r hr
    · rw [if_neg hc] at hr
      rcases List.mem_cons.mp hr with hr | hr
      · subst hr
        exact ⟨idx, rfl⟩
      · exact ih (idx + 1) r hr

theorem doc_mem_id (nfkc : List Char → List Char) (hashOf : List Char → String) :
    ∀ (pages : List (List (List PLine))) (pno gcur : Nat) (r : SentRecord),
      r ∈ docSentencesAux nfkc hashOf pages pno gcur →
      ∃ p k, pno ≤ p ∧ r.id = mkId (p + 1) (k + 1) := by
  intro pages
  induction pages with
  | nil =>
    intro pno gcur r hr
    simp [docSentencesAux] at hr
  | cons pg rest ih =>
    intro pno gcur r hr
    simp only [docSentencesAux] at hr
    rcases List.mem_append.mp hr with hr | hr
    · rcases records_id_shape pno gcur _ _ hashOf _ 0 r hr with ⟨k, hk⟩
      exact ⟨pno, k, le_refl pno, hk⟩
    · rcases ih (pno + 1) _ r hr with ⟨p, k, hp, hk⟩
      exact ⟨p, k, by omega, hk⟩

theorem doc_ids_pairwise (nfkc : List Char → List Char)
    (hashOf : List Char → String) :
    ∀ (pages : List (List (List PLine))) (pno gcur : Nat),
      (docSentencesAux nfkc hashOf pages pno gcur).Pairwise
        (fun r1 r2 => r1.id ≠ r2.id) := by
  intro pages
  induction pages with
  | nil =>
    intro pno gcur
    simp [docSentencesAux]
  | cons pg rest ih =>
    intro pno gcur
    simp only [docSentencesAux]
    rw [List.pairwise_append]
    refine ⟨records_id_nodup pno gcur _ _ hashOf _ 0, ih (pno + 1) _, ?_⟩
    intro a ha b hb
    rcases records_id_shape pno gcur _ _ hashOf _ 0 a ha with ⟨k, hk⟩
    rcases doc_mem_id nfkc hashOf rest (pno + 1) _ b hb with ⟨p, k', hp, hk'⟩
    intro heq
    rw [hk, hk'] at heq
    have := (mkId_inj _ _ _ _ heq).1
    omega

/-- C6: over every document (any NFKC model, any hash model, any pages),
sentence identifiers are unique within the document; within each page the
identifier sequence is exactly the dense, strictly increasing
`S{page}-00001 .. S{page}-{n}`; every record satisfies
`page_char_start < page_char_end`; and the offset ranges of the records of
a page are non-overlapping and strictly increasing in generation order. -/
theorem sentence_indexer_invariants :
    ∀ (nfkc : List Char → List Char) (hashOf : List Char → String)
      (pages : List (List (List PLine))),
      ((docSentences nfkc hashOf pages).Pairwise (fun r1 r2 => r1.id ≠ r2.id))
      ∧ ∀ (blocks : List (List PLine)) (pno gcur : Nat),
          ((iterPageSentences nfkc hashOf blocks pno gcur).1.map (fun r => r.id)
            = (List.range (iterPageSentences nfkc hashOf blocks pno gcur).1.length).map
                (fun j => mkId (pno + 1) (j + 1)))
          ∧ (∀ r ∈ (iterPageSentences nfkc hashOf blocks pno gcur).1,
              r.page_char_start < r.page_char_end)
          ∧ ((iterPageSentences nfkc hashOf blocks pno gcur).1.Pairwise
              (fun r1 r2 => r1.page_char_end ≤ r2.page_char_start)) := by
  intro nfkc hashOf pages
  constructor
  · exact doc_ids_pairwise nfkc hashOf pages 0 0
  · intro blocks pno gcur
    have hok : SpansOk 0 (spansFromMatches (buildPageAux nfkc blocks.join 0).1
        (findMatches (buildPageAux nfkc blocks.join 0).1) 0) :=
      spansFromMatches_ok _ _ 0 (findMatches_mord _)
    refine ⟨?_, ?_, ?_⟩
    · have h := records_ids pno gcur (buildPageAux nfkc blocks.join 0).1
        (buildPageAux nfkc blocks.join 0).2 hashOf
        (spansFromMatches (buildPageAux nfkc blocks.join 0).1
          (findMatches (buildPageAux nfkc blocks.join 0).1) 0) 0
      simp only [iterPageSentences]
      rw [h]
      refine List.map_congr_left ?_
      intro j _
      exact congrArg (mkId (pno + 1)) (by omega)
    · intro r hr
      exact (records_lb pno gcur _ _ hashOf _ 0 0 hok r hr).2
    · exact records_pairwise pno gcur _ _ hashOf _ 0 0 hok
